import Mathlib

/-!
A shallow embedding of the chess rules engine (Types.hpp, Board.cpp, Rules.cpp,
ChessGame.cpp) and proofs about it.

Conventions of the embedding:
- C++ `int` coordinates become `Int`.
- The 8x8 grid of `std::optional<Piece>` becomes a total function
  `Square → Option Piece`; every read the engine performs goes through
  `Board.atSq`, which returns `none` for an out-of-range square, so values the
  function takes outside the board are unobservable.  (`Board::at` has the
  precondition that the square is valid; the one call the engine makes on an
  unvalidated square, `board.at(lm.to)` in the en-passant branch, is thereby
  totalized to "empty".)
- The two C++ `while` loops that walk a sliding direction are embedded with an
  explicit fuel of 8: a walk in a fixed nonzero direction leaves the 8x8 board
  in at most 7 steps, so the fuel never runs out before the loop's own exit
  condition fires.
- C++ signed integer division (truncation toward zero) is `Int.tdiv`.
-/

namespace Chess

/-- Piece color enumeration (Types.hpp). -/
inductive Color : Type
  | White
  | Black
deriving DecidableEq

/-- Chess piece type enumeration (Types.hpp). -/
inductive PieceType : Type
  | Pawn
  | Knight
  | Bishop
  | Rook
  | Queen
  | King
deriving DecidableEq

/-- Chess piece with type and color (Types.hpp). -/
structure Piece : Type where
  type : PieceType
  color : Color
deriving DecidableEq

/-- Board square coordinates; rank 0 is the black back rank, rank 7 the white
back rank, file 0 the a-file (Types.hpp). -/
structure Square : Type where
  rank : Int
  file : Int
deriving DecidableEq

/-- Board dimension (Types.hpp `kBoardSize`). -/
def kBoardSize : Int := 8

/-- Embeds `Square::isValid` (Types.hpp). -/
def Square.isValid (sq : Square) : Bool :=
  decide (0 ≤ sq.rank) && decide (sq.rank < kBoardSize) &&
    decide (0 ≤ sq.file) && decide (sq.file < kBoardSize)

/-- Embeds `isValidSquare(rank, file)` (Types.hpp). -/
def isValidSquare (rank file : Int) : Bool :=
  decide (0 ≤ rank) && decide (rank < kBoardSize) &&
    decide (0 ≤ file) && decide (file < kBoardSize)

/-- Embeds `opponent` (Types.hpp). -/
def opponent : Color → Color
  | Color.White => Color.Black
  | Color.Black => Color.White

/-- A chess move (Move.hpp).  The C++ fields `from`/`to` are renamed
`fromSq`/`toSq` because `from` and `at` are reserved words in Lean.
Equality of the C++ type compares only `from` and `to`; here structure
equality is full, and the (from,to)-only comparison is written out at its
single use site, the matching predicate inside `makeMove`, exactly as the
`find_if` lambda there does in the source. -/
structure Move : Type where
  fromSq : Square
  toSq : Square
  promotion : Option PieceType := none
  en_passant : Bool := false
  castling : Bool := false
deriving DecidableEq

/-- The board: the 8x8 grid of `optional<Piece>` (Board.hpp), totalized as a
function on all squares; see the header comment. -/
def Board : Type := Square → Option Piece

/-- Embeds `Board::at` (Board.cpp), totalized: `none` off the board. -/
def Board.atSq (b : Board) (sq : Square) : Option Piece :=
  if sq.isValid then b sq else none

/-- Embeds `Board::hasPieceAt(Square)` (Board.cpp). -/
def Board.hasPieceAt (b : Board) (sq : Square) : Bool :=
  sq.isValid && (b.atSq sq).isSome

/-- Embeds `Board::hasPieceAt(Square, Color)` (Board.cpp). -/
def Board.hasPieceAtColor (b : Board) (sq : Square) (color : Color) : Bool :=
  if !sq.isValid then false
  else
    match b.atSq sq with
    | some p => decide (p.color = color)
    | none => false

/-- Embeds `Board::setPiece` (Board.cpp): writes only if the square is valid. -/
def Board.setPiece (b : Board) (sq : Square) (p : Option Piece) : Board :=
  if sq.isValid then fun s => if s = sq then p else b s else b

/-- Embeds `Board::clearSquare` (Board.cpp). -/
def Board.clearSquare (b : Board) (sq : Square) : Board :=
  b.setPiece sq none

/-- Embeds `Board::movePiece` (Board.cpp): `grid[to] = grid[from]; grid[from] = nullopt`.
The source does not validity-check `move`; reads/writes at invalid squares
(undefined behavior in C++) are totalized through `atSq`. -/
def Board.movePiece (b : Board) (m : Move) : Board :=
  fun s => if s = m.fromSq then none else if s = m.toSq then b.atSq m.fromSq else b s

/-- Standard back-rank piece order R, N, B, Q, K, B, N, R (Board.cpp). -/
def kBackRankOrder : List PieceType :=
  [PieceType.Rook, PieceType.Knight, PieceType.Bishop, PieceType.Queen,
   PieceType.King, PieceType.Bishop, PieceType.Knight, PieceType.Rook]

/-- Embeds `Board::setupInitialPosition` on a cleared grid, i.e. the standard starting
position that `Board::reset` produces (Board.cpp).  The `getD` default is never
observed: `atSq` masks files outside [0,8). -/
def startBoard : Board := fun sq =>
  if sq.rank = 0 then some ⟨kBackRankOrder.getD sq.file.toNat PieceType.Rook, Color.Black⟩
  else if sq.rank = 1 then some ⟨PieceType.Pawn, Color.Black⟩
  else if sq.rank = 6 then some ⟨PieceType.Pawn, Color.White⟩
  else if sq.rank = 7 then some ⟨kBackRankOrder.getD sq.file.toNat PieceType.Rook, Color.White⟩
  else none

/-- Knight move offsets (Rules.cpp `kKnightMoves`). -/
def kKnightMoves : List (Int × Int) :=
  [(-2, -1), (-2, 1), (-1, -2), (-1, 2), (1, -2), (1, 2), (2, -1), (2, 1)]

/-- All eight directions, rook directions first (Rules.cpp `kAllDirections`). -/
def kAllDirections : List (Int × Int) :=
  [(-1, 0), (1, 0), (0, -1), (0, 1), (-1, -1), (-1, 1), (1, -1), (1, 1)]

/-- Rook directions (Rules.cpp `kRookDirections`). -/
def kRookDirections : List (Int × Int) :=
  [(-1, 0), (1, 0), (0, -1), (0, 1)]

/-- Bishop directions (Rules.cpp `kBishopDirections`). -/
def kBishopDirections : List (Int × Int) :=
  [(-1, -1), (-1, 1), (1, -1), (1, 1)]

/-- The 64 squares in the iteration order of Rules.cpp's double loops:
rank outer 0..7, file inner 0..7. -/
def squaresList : List Square :=
  (List.range 8).flatMap fun r => (List.range 8).map fun f => ⟨Int.ofNat r, Int.ofNat f⟩

/-- Embeds `findKing` (Rules.cpp): first square holding the side's king in the
rank-major scan. -/
def findKing (b : Board) (side : Color) : Option Square :=
  squaresList.find? fun sq =>
    match b.atSq sq with
    | some p => decide (p.type = PieceType.King) && decide (p.color = side)
    | none => false

/-- Embeds `isAttackedByPawn` (Rules.cpp).  Note the source probes
`target + pawn_direction`, i.e. the square in front of the target from the
attacker's point of view. -/
def isAttackedByPawn (b : Board) (target : Square) (attacker : Color) : Bool :=
  let pawn_direction : Int := if attacker = Color.White then -1 else 1
  [(pawn_direction, -1), (pawn_direction, 1)].any fun d =>
    let sq : Square := ⟨target.rank + d.1, target.file + d.2⟩
    if !sq.isValid then false
    else
      match b.atSq sq with
      | some p => decide (p.type = PieceType.Pawn) && decide (p.color = attacker)
      | none => false

/-- Embeds `isAttackedByKnight` (Rules.cpp). -/
def isAttackedByKnight (b : Board) (target : Square) (attacker : Color) : Bool :=
  kKnightMoves.any fun d =>
    let sq : Square := ⟨target.rank + d.1, target.file + d.2⟩
    if !sq.isValid then false
    else
      match b.atSq sq with
      | some p => decide (p.type = PieceType.Knight) && decide (p.color = attacker)
      | none => false

/-- One direction of `isAttackedBySlider`'s while loop (Rules.cpp), with fuel. -/
def sliderWalk (b : Board) (attacker : Color) (is_diagonal : Bool) (dr df : Int) :
    Int → Int → Int → Nat → Bool
  | _, _, _, 0 => false
  | r, f, distance, fuel + 1 =>
    if isValidSquare r f then
      match b.atSq ⟨r, f⟩ with
      | some p =>
        if p.color = attacker then
          (decide (distance = 1) && decide (p.type = PieceType.King)) ||
            (!is_diagonal &&
              (decide (p.type = PieceType.Rook) || decide (p.type = PieceType.Queen))) ||
            (is_diagonal &&
              (decide (p.type = PieceType.Bishop) || decide (p.type = PieceType.Queen)))
        else false
      | none => sliderWalk b attacker is_diagonal dr df (r + dr) (f + df) (distance + 1) fuel
    else false

/-- Embeds `isAttackedBySlider` (Rules.cpp): directions 4..7 are the diagonals. -/
def isAttackedBySlider (b : Board) (target : Square) (attacker : Color) : Bool :=
  kAllDirections.enum.any fun id =>
    sliderWalk b attacker (decide (4 ≤ id.1)) id.2.1 id.2.2
      (target.rank + id.2.1) (target.file + id.2.2) 1 8

/-- Embeds `isSquareAttacked` (Rules.cpp). -/
def isSquareAttacked (b : Board) (target : Square) (attacker : Color) : Bool :=
  isAttackedByPawn b target attacker || isAttackedByKnight b target attacker ||
    isAttackedBySlider b target attacker

/-- The scratch application `isMoveLegal` performs (Rules.cpp): relocate the
piece, then remove the en-passant-captured pawn when flagged. -/
def scratchApply (b : Board) (m : Move) : Board :=
  let copy := b.movePiece m
  if m.en_passant then copy.clearSquare ⟨m.fromSq.rank, m.toSq.file⟩ else copy

/-- Embeds `isMoveLegal` (Rules.cpp): the moving side's king must exist and not be
attacked after the speculative application. -/
def isMoveLegal (b : Board) (m : Move) (side : Color) : Bool :=
  match findKing (scratchApply b m) side with
  | none => false
  | some king_sq => !isSquareAttacked (scratchApply b m) king_sq (opponent side)

/-- Embeds `addMoveIfLegal` (Rules.cpp), producing the emitted sublist. -/
def addMoveIfLegal (b : Board) (fromSq toSq : Square) (side : Color) : List Move :=
  if isMoveLegal b ⟨fromSq, toSq, none, false, false⟩ side
  then [⟨fromSq, toSq, none, false, false⟩] else []

/-- Embeds `generatePawnMoves` (Rules.cpp): single push, double push, the two diagonal
captures, then the en-passant branch. -/
def generatePawnMoves (b : Board) (fromSq : Square) (side : Color)
    (last_move : Option Move) : List Move :=
  let forward : Int := if side = Color.White then -1 else 1
  let start_rank : Int := if side = Color.White then 6 else 1
  let enemy := opponent side
  let one : Square := ⟨fromSq.rank + forward, fromSq.file⟩
  let pushes :=
    if one.isValid && !b.hasPieceAt one then
      addMoveIfLegal b fromSq one side ++
        (let two : Square := ⟨fromSq.rank + 2 * forward, fromSq.file⟩
         if decide (fromSq.rank = start_rank) && two.isValid && !b.hasPieceAt two then
           addMoveIfLegal b fromSq two side
         else [])
    else []
  let captures :=
    [(-1 : Int), 1].flatMap fun df =>
      let cap : Square := ⟨fromSq.rank + forward, fromSq.file + df⟩
      if !cap.isValid then []
      else if b.hasPieceAtColor cap enemy then addMoveIfLegal b fromSq cap side
      else []
  let ep :=
    match last_move with
    | none => []
    | some lm =>
      match b.atSq lm.toSq with
      | none => []
      | some moved_piece =>
        if moved_piece.type = PieceType.Pawn ∧ moved_piece.color = enemy ∧
            (lm.fromSq.rank - lm.toSq.rank).natAbs = 2 then
          if fromSq.rank = lm.toSq.rank ∧ (fromSq.file - lm.toSq.file).natAbs = 1 then
            let passed_rank := Int.tdiv (lm.fromSq.rank + lm.toSq.rank) 2
            let ep_move : Move := ⟨fromSq, ⟨passed_rank, lm.toSq.file⟩, none, true, false⟩
            if isMoveLegal b ep_move side then [ep_move] else []
          else []
        else []
  pushes ++ captures ++ ep

/-- Embeds `generateKnightMoves` (Rules.cpp). -/
def generateKnightMoves (b : Board) (fromSq : Square) (side : Color) : List Move :=
  kKnightMoves.flatMap fun d =>
    let toSq : Square := ⟨fromSq.rank + d.1, fromSq.file + d.2⟩
    if !toSq.isValid then []
    else if b.hasPieceAtColor toSq side then []
    else addMoveIfLegal b fromSq toSq side

/-- One direction of `generateSlidingMoves`'s while loop (Rules.cpp), with fuel. -/
def slideGen (b : Board) (fromSq : Square) (side : Color) (dr df : Int) :
    Int → Int → Nat → List Move
  | _, _, 0 => []
  | r, f, fuel + 1 =>
    if isValidSquare r f then
      match b.atSq ⟨r, f⟩ with
      | some dest =>
        if dest.color ≠ side then addMoveIfLegal b fromSq ⟨r, f⟩ side else []
      | none =>
        addMoveIfLegal b fromSq ⟨r, f⟩ side ++
          slideGen b fromSq side dr df (r + dr) (f + df) fuel
    else []

/-- Embeds `generateSlidingMoves` (Rules.cpp). -/
def generateSlidingMoves (b : Board) (fromSq : Square) (side : Color)
    (directions : List (Int × Int)) : List Move :=
  directions.flatMap fun d =>
    slideGen b fromSq side d.1 d.2 (fromSq.rank + d.1) (fromSq.file + d.2) 8

/-- The castling-rights array `std::array<bool, 4>`; indices
0 = white kingside, 1 = white queenside, 2 = black kingside,
3 = black queenside (Rules.hpp). -/
def CastlingRights : Type := Fin 4 → Bool

/-- The eight king step offsets, in the order of the C++ double loop
(`dr` outer -1..1, `df` inner -1..1, skipping (0,0)) (Rules.cpp). -/
def kKingOffsets : List (Int × Int) :=
  [(-1, -1), (-1, 0), (-1, 1), (0, -1), (0, 1), (1, -1), (1, 0), (1, 1)]

/-- Embeds `generateKingMoves` (Rules.cpp): the adjacent steps, then castling. -/
def generateKingMoves (b : Board) (fromSq : Square) (side : Color)
    (castling_rights : CastlingRights) : List Move :=
  let enemy := opponent side
  let normal :=
    kKingOffsets.flatMap fun d =>
      let toSq : Square := ⟨fromSq.rank + d.1, fromSq.file + d.2⟩
      if !toSq.isValid then []
      else if b.hasPieceAtColor toSq side then []
      else addMoveIfLegal b fromSq toSq side
  let home_rank : Int := if side = Color.White then 7 else 0
  let king_file : Int := 4
  let castles :=
    if fromSq.rank ≠ home_rank ∨ fromSq.file ≠ king_file then []
    else if isSquareAttacked b fromSq enemy then []
    else
      let kingside := if side = Color.White then castling_rights 0 else castling_rights 2
      let queenside := if side = Color.White then castling_rights 1 else castling_rights 3
      let ks :=
        if kingside then
          match b.atSq ⟨home_rank, 7⟩ with
          | some rook =>
            if rook.type = PieceType.Rook ∧ rook.color = side then
              if !b.hasPieceAt ⟨home_rank, 5⟩ && !b.hasPieceAt ⟨home_rank, 6⟩ then
                if !isSquareAttacked b ⟨home_rank, 5⟩ enemy &&
                    !isSquareAttacked b ⟨home_rank, 6⟩ enemy then
                  let castle : Move := ⟨fromSq, ⟨home_rank, 6⟩, none, false, true⟩
                  if isMoveLegal b castle side then [castle] else []
                else []
              else []
            else []
          | none => []
        else []
      let qs :=
        if queenside then
          match b.atSq ⟨home_rank, 0⟩ with
          | some rook =>
            if rook.type = PieceType.Rook ∧ rook.color = side then
              if !b.hasPieceAt ⟨home_rank, 1⟩ && !b.hasPieceAt ⟨home_rank, 2⟩ &&
                  !b.hasPieceAt ⟨home_rank, 3⟩ then
                if !isSquareAttacked b ⟨home_rank, 2⟩ enemy &&
                    !isSquareAttacked b ⟨home_rank, 3⟩ enemy then
                  let castle : Move := ⟨fromSq, ⟨home_rank, 2⟩, none, false, true⟩
                  if isMoveLegal b castle side then [castle] else []
                else []
              else []
            else []
          | none => []
        else []
      ks ++ qs
  normal ++ castles

namespace Rules

/-- Embeds `Rules::legalMoves` (Rules.cpp): scan the 64 squares rank-major and
dispatch on the piece type of each piece of the side to move. -/
def legalMoves (b : Board) (side : Color) (last_move : Option Move)
    (castling_rights : CastlingRights) : List Move :=
  squaresList.flatMap fun fromSq =>
    match b.atSq fromSq with
    | none => []
    | some piece =>
      if piece.color ≠ side then []
      else
        match piece.type with
        | PieceType.Pawn => generatePawnMoves b fromSq side last_move
        | PieceType.Knight => generateKnightMoves b fromSq side
        | PieceType.Bishop => generateSlidingMoves b fromSq side kBishopDirections
        | PieceType.Rook => generateSlidingMoves b fromSq side kRookDirections
        | PieceType.Queen => generateSlidingMoves b fromSq side kAllDirections
        | PieceType.King => generateKingMoves b fromSq side castling_rights

/-- Embeds `Rules::isCheck` (Rules.cpp). -/
def isCheck (b : Board) (side : Color) : Bool :=
  match findKing b side with
  | none => false
  | some king_sq => isSquareAttacked b king_sq (opponent side)

/-- Embeds `Rules::isCheckmate` (Rules.cpp). -/
def isCheckmate (b : Board) (side : Color) (last_move : Option Move)
    (castling_rights : CastlingRights) : Bool :=
  isCheck b side && (legalMoves b side last_move castling_rights).isEmpty

/-- Embeds `Rules::isStalemate` (Rules.cpp). -/
def isStalemate (b : Board) (side : Color) (last_move : Option Move)
    (castling_rights : CastlingRights) : Bool :=
  !isCheck b side && (legalMoves b side last_move castling_rights).isEmpty

end Rules

/-- The session state owned by `ChessGame` (ChessGame.hpp). -/
structure GameState : Type where
  board : Board
  side_to_move : Color
  last_move : Option Move
  castling_rights : CastlingRights

/-- Embeds `ChessGame::newGame` (ChessGame.cpp): starting position, White to move, no
last move, all four castling rights held. -/
def newGame : GameState :=
  ⟨startBoard, Color.White, none, fun _ => true⟩

/-- Embeds `ChessGame::handleSpecialMoves` (ChessGame.cpp): en-passant pawn removal,
the main relocation, then the castling rook relocation. -/
def handleSpecialMoves (b : Board) (m : Move) : Board :=
  let b1 := if m.en_passant then b.clearSquare ⟨m.fromSq.rank, m.toSq.file⟩ else b
  let b2 := b1.movePiece m
  if m.castling then
    if m.toSq.file = 6 then
      b2.movePiece ⟨⟨m.fromSq.rank, 7⟩, ⟨m.fromSq.rank, 5⟩, none, false, false⟩
    else if m.toSq.file = 2 then
      b2.movePiece ⟨⟨m.fromSq.rank, 0⟩, ⟨m.fromSq.rank, 3⟩, none, false, false⟩
    else b2
  else b2

/-- Clear one entry of the castling-rights array. -/
def clearRight (cr : CastlingRights) (i : Fin 4) : CastlingRights :=
  Function.update cr i false

/-- The `revokeIfRookSquare` lambda inside `ChessGame::updateCastlingRights`
(ChessGame.cpp): clears the right whose rook corner the square is. -/
def revokeIfRookSquare (cr : CastlingRights) (sq : Square) : CastlingRights :=
  if sq.rank = 7 then
    if sq.file = 0 then clearRight cr 1
    else if sq.file = 7 then clearRight cr 0
    else cr
  else if sq.rank = 0 then
    if sq.file = 0 then clearRight cr 3
    else if sq.file = 7 then clearRight cr 2
    else cr
  else cr

/-- Embeds `ChessGame::updateCastlingRights` (ChessGame.cpp), reading the board AFTER
the move was applied (as the member function does): a king found on the
destination revokes both rights of the mover's color, then `revokeIfRookSquare`
runs on the origin and the destination square. -/
def updateCastlingRights (b : Board) (side : Color) (m : Move)
    (cr : CastlingRights) : CastlingRights :=
  let cr1 :=
    match b.atSq m.toSq with
    | some p =>
      if p.type = PieceType.King then
        if side = Color.White then clearRight (clearRight cr 0) 1
        else clearRight (clearRight cr 2) 3
      else cr
    | none => cr
  revokeIfRookSquare (revokeIfRookSquare cr1 m.fromSq) m.toSq

/-- Embeds `ChessGame::makeMove` (ChessGame.cpp), with the mutation written as state
passing: the returned `Bool` is the C++ return value, the returned state the
session state after the call.  The candidate is matched against the generated
list by (from,to) only, and the MATCHED element is applied. -/
def makeMove (g : GameState) (move : Move) : Bool × GameState :=
  let moves := Rules.legalMoves g.board g.side_to_move g.last_move g.castling_rights
  match moves.find? fun m => decide (m.fromSq = move.fromSq) && decide (m.toSq = move.toSq) with
  | none => (false, g)
  | some legal_move =>
    let b := handleSpecialMoves g.board legal_move
    let cr := updateCastlingRights b g.side_to_move legal_move g.castling_rights
    (true, ⟨b, opponent g.side_to_move, some legal_move, cr⟩)

/-- The session states a `ChessGame` can be in: `newGame()` starts every
session (the constructor calls it), and the only mutator is a successful
`makeMove`. -/
inductive Reachable : GameState → Prop
  | base : Reachable newGame
  | step {g g' : GameState} {m : Move} (h : Reachable g)
      (hm : makeMove g m = (true, g')) : Reachable g'

/-- Embeds `ChessGame::legalMoves` (ChessGame.cpp): delegate to `Rules` with the
stored session state. -/
def GameState.legalMoves (g : GameState) : List Move :=
  Rules.legalMoves g.board g.side_to_move g.last_move g.castling_rights

/-- Apply one candidate move, keeping the session state whether or not the
move was accepted (mirrors calling `makeMove` on a live session). -/
def stepState (g : GameState) (m : Move) : GameState :=
  (makeMove g m).2

/-- Play a list of candidate moves in order. -/
def playAll (g : GameState) (ms : List Move) : GameState :=
  ms.foldl stepState g

/-- True when every move of the list is accepted in sequence. -/
def allAccepted : GameState → List Move → Bool
  | _, [] => true
  | g, m :: ms => (makeMove g m).1 && allAccepted (stepState g m) ms

/-- The double pawn push e2-e4 in board coordinates. -/
def e2e4 : Move := ⟨⟨6, 4⟩, ⟨4, 4⟩, none, false, false⟩

/-- A degenerate candidate (a1 to a1) that matches no generated move. -/
def a1a1 : Move := ⟨⟨7, 0⟩, ⟨7, 0⟩, none, false, false⟩

/-- The session state after 1. e4 from the start. -/
def afterE2E4 : GameState := (makeMove newGame e2e4).2

/-- A board with no pieces at all. -/
def emptyBoard : Board := fun _ => none

/-- White king e1, white rook h1, black king a8: a minimal position where
white may castle kingside. -/
def castleBoard : Board := fun sq =>
  if sq = ⟨7, 4⟩ then some ⟨PieceType.King, Color.White⟩
  else if sq = ⟨7, 7⟩ then some ⟨PieceType.Rook, Color.White⟩
  else if sq = ⟨0, 0⟩ then some ⟨PieceType.King, Color.Black⟩
  else none

/-- The white kingside castling move e1-g1. -/
def castleKingside : Move := ⟨⟨7, 4⟩, ⟨7, 6⟩, none, false, true⟩

/-- A start-of-game state whose white-kingside right is already cleared. -/
def noWKsState : GameState := ⟨startBoard, Color.White, none, fun i => decide (¬i = 0)⟩

/-- The line 1.d3 e5 2.Nf3 e4 3.h3 exd3 4.h4 d2 5.h5 dxe1: a line of moves the engine
accepts in which black's d2-pawn captures the white king on e1 (the engine's
pawn-attack detection looks on the wrong side of the target, so the check from
d2 is invisible and white is allowed to ignore it). -/
def kingCaptureMoves : List Move :=
  [⟨⟨6, 3⟩, ⟨5, 3⟩, none, false, false⟩,
   ⟨⟨1, 4⟩, ⟨3, 4⟩, none, false, false⟩,
   ⟨⟨7, 6⟩, ⟨5, 5⟩, none, false, false⟩,
   ⟨⟨3, 4⟩, ⟨4, 4⟩, none, false, false⟩,
   ⟨⟨6, 7⟩, ⟨5, 7⟩, none, false, false⟩,
   ⟨⟨4, 4⟩, ⟨5, 3⟩, none, false, false⟩,
   ⟨⟨5, 7⟩, ⟨4, 7⟩, none, false, false⟩,
   ⟨⟨5, 3⟩, ⟨6, 3⟩, none, false, false⟩,
   ⟨⟨4, 7⟩, ⟨3, 7⟩, none, false, false⟩,
   ⟨⟨6, 3⟩, ⟨7, 4⟩, none, false, false⟩]

/-- The twenty moves available from the standard starting position, in
generation order. -/
def startMovesList : List Move :=
  [⟨⟨6, 0⟩, ⟨5, 0⟩, none, false, false⟩,
   ⟨⟨6, 0⟩, ⟨4, 0⟩, none, false, false⟩,
   ⟨⟨6, 1⟩, ⟨5, 1⟩, none, false, false⟩,
   ⟨⟨6, 1⟩, ⟨4, 1⟩, none, false, false⟩,
   ⟨⟨6, 2⟩, ⟨5, 2⟩, none, false, false⟩,
   ⟨⟨6, 2⟩, ⟨4, 2⟩, none, false, false⟩,
   ⟨⟨6, 3⟩, ⟨5, 3⟩, none, false, false⟩,
   ⟨⟨6, 3⟩, ⟨4, 3⟩, none, false, false⟩,
   ⟨⟨6, 4⟩, ⟨5, 4⟩, none, false, false⟩,
   ⟨⟨6, 4⟩, ⟨4, 4⟩, none, false, false⟩,
   ⟨⟨6, 5⟩, ⟨5, 5⟩, none, false, false⟩,
   ⟨⟨6, 5⟩, ⟨4, 5⟩, none, false, false⟩,
   ⟨⟨6, 6⟩, ⟨5, 6⟩, none, false, false⟩,
   ⟨⟨6, 6⟩, ⟨4, 6⟩, none, false, false⟩,
   ⟨⟨6, 7⟩, ⟨5, 7⟩, none, false, false⟩,
   ⟨⟨6, 7⟩, ⟨4, 7⟩, none, false, false⟩,
   ⟨⟨7, 1⟩, ⟨5, 0⟩, none, false, false⟩,
   ⟨⟨7, 1⟩, ⟨5, 2⟩, none, false, false⟩,
   ⟨⟨7, 6⟩, ⟨5, 5⟩, none, false, false⟩,
   ⟨⟨7, 6⟩, ⟨5, 7⟩, none, false, false⟩]


/-! ### The shape of generated moves

`EpFacts` collects what holds of an en-passant move emitted by
`generatePawnMoves`; `CastleFacts` what holds of a castling move emitted by
`generateKingMoves`; `MoveProps` the facts common to every emitted move. -/

/-- The mover's home rank, as computed inside `generateKingMoves`. -/
def homeRank (side : Color) : Int := if side = Color.White then 7 else 0

/-- Index of the side's kingside castling right in the rights array. -/
def kingsideIdx (side : Color) : Fin 4 := if side = Color.White then 0 else 2

/-- Index of the side's queenside castling right in the rights array. -/
def queensideIdx (side : Color) : Fin 4 := if side = Color.White then 1 else 3

/-- The rook home corner guarding each castling right. -/
def cornerSq (i : Fin 4) : Square :=
  if i = 0 then ⟨7, 7⟩ else if i = 1 then ⟨7, 0⟩ else if i = 2 then ⟨0, 7⟩ else ⟨0, 0⟩

/-- The color owning each castling right. -/
def rightColor (i : Fin 4) : Color :=
  if i = 0 ∨ i = 1 then Color.White else Color.Black

/-- Facts true of every en-passant move in the generated list. -/
structure EpFacts (b : Board) (side : Color) (lm : Option Move) (m : Move) : Prop where
  pawn_from : b.atSq m.fromSq = some ⟨PieceType.Pawn, side⟩
  exists_last : ∃ l, lm = some l ∧
    b.atSq l.toSq = some ⟨PieceType.Pawn, opponent side⟩ ∧
    (l.fromSq.rank - l.toSq.rank).natAbs = 2 ∧
    m.fromSq.rank = l.toSq.rank ∧
    (m.fromSq.file - l.toSq.file).natAbs = 1 ∧
    m.toSq = ⟨Int.tdiv (l.fromSq.rank + l.toSq.rank) 2, l.toSq.file⟩
  not_castle : m.castling = false

/-- Facts true of every castling move in the generated list. -/
structure CastleFacts (b : Board) (side : Color) (cr : CastlingRights) (m : Move) : Prop where
  king_from : b.atSq m.fromSq = some ⟨PieceType.King, side⟩
  from_home : m.fromSq = ⟨homeRank side, 4⟩
  to_rank : m.toSq.rank = homeRank side
  king_not_attacked : isSquareAttacked b m.fromSq (opponent side) = false
  not_ep : m.en_passant = false
  side_facts :
    (m.toSq.file = 6 ∧ cr (kingsideIdx side) = true ∧
      b.atSq ⟨homeRank side, 7⟩ = some ⟨PieceType.Rook, side⟩ ∧
      b.hasPieceAt ⟨homeRank side, 5⟩ = false ∧ b.hasPieceAt ⟨homeRank side, 6⟩ = false ∧
      isSquareAttacked b ⟨homeRank side, 5⟩ (opponent side) = false ∧
      isSquareAttacked b ⟨homeRank side, 6⟩ (opponent side) = false) ∨
    (m.toSq.file = 2 ∧ cr (queensideIdx side) = true ∧
      b.atSq ⟨homeRank side, 0⟩ = some ⟨PieceType.Rook, side⟩ ∧
      b.hasPieceAt ⟨homeRank side, 1⟩ = false ∧ b.hasPieceAt ⟨homeRank side, 2⟩ = false ∧
      b.hasPieceAt ⟨homeRank side, 3⟩ = false ∧
      isSquareAttacked b ⟨homeRank side, 2⟩ (opponent side) = false ∧
      isSquareAttacked b ⟨homeRank side, 3⟩ (opponent side) = false)

/-- Facts true of every move emitted by any of the per-piece generators. -/
structure MoveProps (b : Board) (side : Color) (lm : Option Move) (cr : CastlingRights)
    (m : Move) : Prop where
  legal : isMoveLegal b m side = true
  promo : m.promotion = none
  ne : m.fromSq ≠ m.toSq
  not_both : m.en_passant = false ∨ m.castling = false
  to_valid : m.en_passant = true ∨ m.toSq.isValid = true
  ep : m.en_passant = true → EpFacts b side lm m
  castle : m.castling = true → CastleFacts b side cr m

/-- Well-formedness of a session state: the stored last move (when present)
lies on the board, and every held castling right has the matching rook on its
home corner. -/
structure WF (g : GameState) : Prop where
  lm_valid : ∀ l, g.last_move = some l → l.fromSq.isValid = true ∧ l.toSq.isValid = true
  rook_at : ∀ i, g.castling_rights i = true →
    g.board.atSq (cornerSq i) = some ⟨PieceType.Rook, rightColor i⟩

/-! ### Basic lemmas about squares and board reads -/

theorem Square.isValid_iff {sq : Square} :
    sq.isValid = true ↔ 0 ≤ sq.rank ∧ sq.rank < 8 ∧ 0 ≤ sq.file ∧ sq.file < 8 := by
  simp [Square.isValid, kBoardSize]
  tauto

theorem mem_squaresList {sq : Square} : sq ∈ squaresList ↔ sq.isValid = true := by
  obtain ⟨r0, f0⟩ := sq
  rw [Square.isValid_iff]
  dsimp only
  unfold squaresList
  rw [List.mem_flatMap]
  constructor
  · rintro ⟨r, hr, hmem⟩
    rw [List.mem_map] at hmem
    obtain ⟨f, hf, heq⟩ := hmem
    rw [List.mem_range] at hr hf
    injection heq with e1 e2
    rw [Int.ofNat_eq_natCast] at e1 e2
    refine ⟨?_, ?_, ?_, ?_⟩ <;> omega
  · rintro ⟨h1, h2, h3, h4⟩
    refine ⟨r0.toNat, ?_, ?_⟩
    · rw [List.mem_range]
      omega
    · rw [List.mem_map]
      refine ⟨f0.toNat, ?_, ?_⟩
      · rw [List.mem_range]
        omega
      · simp only [Square.mk.injEq, Int.ofNat_eq_natCast]
        constructor <;> omega

theorem atSq_invalid {b : Board} {sq : Square} (h : sq.isValid = false) : b.atSq sq = none := by
  simp [Board.atSq, h]

theorem atSq_some_valid {b : Board} {sq : Square} {p : Piece} (h : b.atSq sq = some p) :
    sq.isValid = true := by
  by_contra hv
  rw [atSq_invalid (by simpa using hv)] at h
  exact Option.noConfusion h

theorem atSq_clearSquare_of_ne {b : Board} {sq s : Square} (h : s ≠ sq) :
    (b.clearSquare sq).atSq s = b.atSq s := by
  by_cases hv : sq.isValid = true
  · simp [Board.clearSquare, Board.setPiece, Board.atSq, hv, h]
  · simp [Board.clearSquare, Board.setPiece, Board.atSq, hv]

theorem atSq_movePiece_of_ne {b : Board} {m : Move} {s : Square}
    (h1 : s ≠ m.fromSq) (h2 : s ≠ m.toSq) : (b.movePiece m).atSq s = b.atSq s := by
  simp [Board.movePiece, Board.atSq, h1, h2]

theorem atSq_movePiece_to {b : Board} {m : Move} (h : m.fromSq ≠ m.toSq)
    (hv : m.toSq.isValid = true) : (b.movePiece m).atSq m.toSq = b.atSq m.fromSq := by
  have hb : Board.atSq (b.movePiece m) m.toSq = if m.toSq.isValid then b.movePiece m m.toSq else none := rfl
  rw [hb, if_pos hv]
  show (if m.toSq = m.fromSq then none else if m.toSq = m.toSq then b.atSq m.fromSq else b m.toSq) = _
  rw [if_neg (Ne.symm h), if_pos rfl]

/-- Every square of a board after `movePiece` holds nothing, the moved piece,
or what it held before. -/
theorem atSq_movePiece_cases (b : Board) (m : Move) (s : Square) :
    (b.movePiece m).atSq s = none ∨ (b.movePiece m).atSq s = b.atSq m.fromSq ∨
      (b.movePiece m).atSq s = b.atSq s := by
  by_cases hv : s.isValid = true
  case neg =>
    left
    exact atSq_invalid (by simpa using hv)
  by_cases h1 : s = m.fromSq
  · left
    subst h1
    simp [Board.movePiece, Board.atSq]
  · by_cases h2 : s = m.toSq
    · subst h2
      right
      left
      exact atSq_movePiece_to (Ne.symm h1) hv
    · right
      right
      exact atSq_movePiece_of_ne h1 h2

theorem atSq_clearSquare_cases (b : Board) (sq s : Square) :
    (b.clearSquare sq).atSq s = none ∨ (b.clearSquare sq).atSq s = b.atSq s := by
  by_cases h : s = sq
  · subst h
    by_cases hv : s.isValid = true
    · left
      simp [Board.clearSquare, Board.setPiece, Board.atSq, hv]
    · right
      simp [Board.clearSquare, Board.setPiece, Board.atSq, hv]
  · right
    exact atSq_clearSquare_of_ne h

theorem findKing_eq_none_iff {b : Board} {side : Color} :
    findKing b side = none ↔ ∀ sq, b.atSq sq ≠ some ⟨PieceType.King, side⟩ := by
  unfold findKing
  rw [List.find?_eq_none]
  constructor
  · intro h sq hsq
    have hv : sq.isValid = true := atSq_some_valid hsq
    have hh := h sq (mem_squaresList.mpr hv)
    rw [hsq] at hh
    simp at hh
  · intro h sq _
    cases hq : b.atSq sq with
    | none => simp
    | some p =>
      rcases p with ⟨pt, pc⟩
      simp only [Bool.and_eq_true, decide_eq_true_eq, not_and]
      intro ht hc
      subst ht
      subst hc
      exact h sq hq

theorem isMoveLegal_iff {b : Board} {m : Move} {side : Color} :
    isMoveLegal b m side = true ↔
      ∃ k, findKing (scratchApply b m) side = some k ∧
        isSquareAttacked (scratchApply b m) k (opponent side) = false := by
  unfold isMoveLegal
  cases h : findKing (scratchApply b m) side with
  | none => simp [h]
  | some k => simp [h]

theorem mem_addMoveIfLegal {b : Board} {f t : Square} {side : Color} {m : Move} :
    m ∈ addMoveIfLegal b f t side ↔
      isMoveLegal b ⟨f, t, none, false, false⟩ side = true ∧ m = ⟨f, t, none, false, false⟩ := by
  unfold addMoveIfLegal
  split <;> simp_all

/-- A square never equals its own translate by a nonzero offset. -/
theorem square_ne_offset {s : Square} {d e : Int} (h : ¬(d = 0 ∧ e = 0)) :
    s ≠ ⟨s.rank + d, s.file + e⟩ := by
  intro he
  cases s
  simp only [Square.mk.injEq] at he
  omega


/-! ### Arithmetic facts about the en-passant midpoint rank -/

theorem tdiv_mid {a c : Int} (h : (a - c).natAbs = 2) :
    (a = c + 2 ∧ Int.tdiv (a + c) 2 = c + 1) ∨
      (a = c - 2 ∧ Int.tdiv (a + c) 2 = c - 1) := by
  have h2 : a = c + 2 ∨ a = c - 2 := by omega
  rcases h2 with h2 | h2 <;> subst h2
  · left
    refine ⟨rfl, ?_⟩
    have e : c + 2 + c = 2 * (c + 1) := by ring
    rw [e, Int.mul_tdiv_cancel_left]
    norm_num
  · right
    refine ⟨rfl, ?_⟩
    have e : c - 2 + c = 2 * (c - 1) := by ring
    rw [e, Int.mul_tdiv_cancel_left]
    norm_num

theorem tdiv_mid_sum {a c : Int} (h : (a - c).natAbs = 2) :
    a + c = 2 * Int.tdiv (a + c) 2 := by
  have h2 : a = c + 2 ∨ a = c - 2 := by omega
  rcases h2 with h2 | h2 <;> subst h2
  · have e : c + 2 + c = 2 * (c + 1) := by ring
    rw [e, Int.mul_tdiv_cancel_left]
    norm_num
  · have e : c - 2 + c = 2 * (c - 1) := by ring
    rw [e, Int.mul_tdiv_cancel_left]
    norm_num

theorem square_ne_of_rank {s t : Square} (h : s.rank ≠ t.rank) : s ≠ t := by
  intro he
  exact h (he ▸ rfl)

theorem facts_of_mem_generatePawnMoves {b : Board} {fromSq : Square} {side : Color}
    {lm : Option Move} {cr : CastlingRights} {m : Move}
    (hp : b.atSq fromSq = some ⟨PieceType.Pawn, side⟩)
    (hm : m ∈ generatePawnMoves b fromSq side lm) :
    MoveProps b side lm cr m ∧ m.fromSq = fromSq := by
  unfold generatePawnMoves at hm
  set fwd : Int := (if side = Color.White then (-1 : Int) else 1) with hfwd_def
  have hfwd : fwd = -1 ∨ fwd = 1 := by
    rw [hfwd_def]
    cases side <;> simp
  set srank : Int := (if side = Color.White then (6 : Int) else 1) with hsrank_def
  simp only [List.mem_append] at hm
  rcases hm with (hm | hm) | hm
  · -- single and double pushes
    split at hm
    case isFalse => simp at hm
    case isTrue hcond =>
      rw [List.mem_append] at hm
      rcases hm with hm | hm
      · rw [mem_addMoveIfLegal] at hm
        obtain ⟨hleg, rfl⟩ := hm
        refine ⟨⟨hleg, rfl, ?_, by simp, ?_, ?_, ?_⟩, rfl⟩
        · exact square_ne_of_rank (by dsimp; rcases hfwd with h | h <;> omega)
        · right
          simp only [Bool.and_eq_true] at hcond
          exact hcond.1
        · intro h
          simp at h
        · intro h
          simp at h
      · split at hm
        case isFalse => simp at hm
        case isTrue hcond2 =>
          rw [mem_addMoveIfLegal] at hm
          obtain ⟨hleg, rfl⟩ := hm
          refine ⟨⟨hleg, rfl, ?_, by simp, ?_, ?_, ?_⟩, rfl⟩
          · exact square_ne_of_rank (by dsimp; rcases hfwd with h | h <;> omega)
          · right
            simp only [Bool.and_eq_true] at hcond2
            exact hcond2.1.2
          · intro h
            simp at h
          · intro h
            simp at h
  · -- diagonal captures
    rw [List.mem_flatMap] at hm
    obtain ⟨df, hdf, hm⟩ := hm
    split at hm
    case isTrue => simp at hm
    case isFalse hvalid =>
      split at hm
      case isFalse => simp at hm
      case isTrue =>
        rw [mem_addMoveIfLegal] at hm
        obtain ⟨hleg, rfl⟩ := hm
        refine ⟨⟨hleg, rfl, ?_, by simp, ?_, ?_, ?_⟩, rfl⟩
        · exact square_ne_of_rank (by dsimp; rcases hfwd with h | h <;> omega)
        · right
          simpa using hvalid
        · intro h
          simp at h
        · intro h
          simp at h
  · -- en passant
    rcases hl : lm with _ | l
    · rw [hl] at hm
      simp at hm
    rw [hl] at hm
    dsimp only at hm
    rcases hq : b.atSq l.toSq with _ | moved_piece
    · rw [hq] at hm
      simp at hm
    rw [hq] at hm
    dsimp only at hm
    split at hm
    case isFalse => simp at hm
    case isTrue hc1 =>
      split at hm
      case isFalse => simp at hm
      case isTrue hc2 =>
        split at hm
        case isFalse => simp at hm
        case isTrue hleg =>
          rw [List.mem_singleton] at hm
          subst hm
          obtain ⟨ht, hcol, habs⟩ := hc1
          obtain ⟨hrank, hfile⟩ := hc2
          obtain ⟨mt, mc⟩ := moved_piece
          dsimp only at ht hcol
          subst ht
          subst hcol
          refine ⟨⟨hleg, rfl, ?_, by simp, ?_, ?_, ?_⟩, rfl⟩
          · refine square_ne_of_rank ?_
            dsimp only
            rcases tdiv_mid habs with ⟨ha, he⟩ | ⟨ha, he⟩ <;> omega
          · left
            rfl
          · intro _
            exact ⟨hp, ⟨l, rfl, hq, habs, hrank, hfile, rfl⟩, rfl⟩
          · intro h
            simp at h


theorem square_ne_of_file {s t : Square} (h : s.file ≠ t.file) : s ≠ t := by
  intro he
  exact h (he ▸ rfl)

theorem facts_of_mem_generateKnightMoves {b : Board} {fromSq : Square} {side : Color}
    {lm : Option Move} {cr : CastlingRights} {m : Move}
    (hm : m ∈ generateKnightMoves b fromSq side) :
    MoveProps b side lm cr m ∧ m.fromSq = fromSq := by
  unfold generateKnightMoves at hm
  rw [List.mem_flatMap] at hm
  obtain ⟨d, hd, hm⟩ := hm
  dsimp only at hm
  split at hm
  case isTrue => simp at hm
  case isFalse hvalid =>
    split at hm
    case isTrue => simp at hm
    case isFalse =>
      rw [mem_addMoveIfLegal] at hm
      obtain ⟨hleg, rfl⟩ := hm
      have hne : ¬(d.1 = 0 ∧ d.2 = 0) := by fin_cases hd <;> decide
      refine ⟨⟨hleg, rfl, square_ne_offset hne, by simp, ?_, ?_, ?_⟩, rfl⟩
      · right
        simpa using hvalid
      · intro h
        simp at h
      · intro h
        simp at h

theorem facts_of_mem_slideGen {b : Board} {fromSq : Square} {side : Color} {dr df : Int}
    (hd : ¬(dr = 0 ∧ df = 0)) :
    ∀ (fuel : Nat) (r f : Int),
      ((0 < dr → fromSq.rank < r) ∧ (dr = 0 → r = fromSq.rank) ∧ (dr < 0 → r < fromSq.rank)) →
      ((0 < df → fromSq.file < f) ∧ (df = 0 → f = fromSq.file) ∧ (df < 0 → f < fromSq.file)) →
      ∀ m ∈ slideGen b fromSq side dr df r f fuel,
        isMoveLegal b m side = true ∧ m.fromSq = fromSq ∧ m.promotion = none ∧
          m.en_passant = false ∧ m.castling = false ∧ m.fromSq ≠ m.toSq ∧
          m.toSq.isValid = true := by
  intro fuel
  induction fuel with
  | zero =>
    intro r f _ _ m hm
    simp [slideGen] at hm
  | succ n ih =>
    intro r f hr hf m hm
    have hne : fromSq ≠ (⟨r, f⟩ : Square) := by
      rcases lt_trichotomy dr 0 with hdr | hdr | hdr
      · exact square_ne_of_rank (by have := hr.2.2 hdr; dsimp; omega)
      · have hreq := hr.2.1 hdr
        have hdf : df ≠ 0 := fun h => hd ⟨hdr, h⟩
        rcases lt_trichotomy df 0 with h2 | h2 | h2
        · exact square_ne_of_file (by have := hf.2.2 h2; dsimp; omega)
        · exact absurd h2 hdf
        · exact square_ne_of_file (by have := hf.1 h2; dsimp; omega)
      · exact square_ne_of_rank (by have := hr.1 hdr; dsimp; omega)
    rw [slideGen] at hm
    split at hm
    case isFalse => simp at hm
    case isTrue hvalid =>
      have hvalid2 : (⟨r, f⟩ : Square).isValid = true := hvalid
      rcases hq : b.atSq ⟨r, f⟩ with _ | dest
      · rw [hq] at hm
        dsimp only at hm
        rw [List.mem_append] at hm
        rcases hm with hm | hm
        · rw [mem_addMoveIfLegal] at hm
          obtain ⟨hleg, rfl⟩ := hm
          exact ⟨hleg, rfl, rfl, rfl, rfl, hne, hvalid2⟩
        · refine ih (r + dr) (f + df) ⟨?_, ?_, ?_⟩ ⟨?_, ?_, ?_⟩ m hm
          · intro h
            have := hr.1 h
            omega
          · intro h
            have := hr.2.1 h
            omega
          · intro h
            have := hr.2.2 h
            omega
          · intro h
            have := hf.1 h
            omega
          · intro h
            have := hf.2.1 h
            omega
          · intro h
            have := hf.2.2 h
            omega
      · rw [hq] at hm
        dsimp only at hm
        split at hm
        case isFalse => simp at hm
        case isTrue =>
          rw [mem_addMoveIfLegal] at hm
          obtain ⟨hleg, rfl⟩ := hm
          exact ⟨hleg, rfl, rfl, rfl, rfl, hne, hvalid2⟩

theorem facts_of_mem_generateSlidingMoves {b : Board} {fromSq : Square} {side : Color}
    {dirs : List (Int × Int)} {lm : Option Move} {cr : CastlingRights} {m : Move}
    (hdirs : ∀ d ∈ dirs, ¬(d.1 = 0 ∧ d.2 = 0))
    (hm : m ∈ generateSlidingMoves b fromSq side dirs) :
    MoveProps b side lm cr m ∧ m.fromSq = fromSq := by
  unfold generateSlidingMoves at hm
  rw [List.mem_flatMap] at hm
  obtain ⟨d, hd, hm⟩ := hm
  have h := facts_of_mem_slideGen (hdirs d hd) 8 (fromSq.rank + d.1) (fromSq.file + d.2)
    ⟨by intro h; omega, by intro h; omega, by intro h; omega⟩
    ⟨by intro h; omega, by intro h; omega, by intro h; omega⟩ m hm
  obtain ⟨hleg, hfrom, hpromo, hep, hca, hne, hval⟩ := h
  refine ⟨⟨hleg, hpromo, hne, Or.inl hep, Or.inr hval, ?_, ?_⟩, hfrom⟩
  · intro h
    rw [hep] at h
    simp at h
  · intro h
    rw [hca] at h
    simp at h


theorem facts_of_mem_generateKingMoves {b : Board} {fromSq : Square} {side : Color}
    {lm : Option Move} {cr : CastlingRights} {m : Move}
    (hk : b.atSq fromSq = some ⟨PieceType.King, side⟩)
    (hm : m ∈ generateKingMoves b fromSq side cr) :
    MoveProps b side lm cr m ∧ m.fromSq = fromSq := by
  unfold generateKingMoves at hm
  set home : Int := (if side = Color.White then (7 : Int) else 0) with hhome_def
  have hhome78 : home = 7 ∨ home = 0 := by
    rw [hhome_def]
    cases side <;> simp
  have hhomeRank : homeRank side = home := by
    rw [hhome_def, homeRank]
  set ksRight : Bool := (if side = Color.White then cr 0 else cr 2) with hks_def
  set qsRight : Bool := (if side = Color.White then cr 1 else cr 3) with hqs_def
  have hksIdx : cr (kingsideIdx side) = ksRight := by
    rw [kingsideIdx, hks_def]
    cases side <;> simp
  have hqsIdx : cr (queensideIdx side) = qsRight := by
    rw [queensideIdx, hqs_def]
    cases side <;> simp
  simp only [List.mem_append] at hm
  rcases hm with hm | hm
  · -- the eight adjacent steps
    rw [List.mem_flatMap] at hm
    obtain ⟨d, hd, hm⟩ := hm
    split at hm
    case isTrue => simp at hm
    case isFalse hvalid =>
      split at hm
      case isTrue => simp at hm
      case isFalse =>
        rw [mem_addMoveIfLegal] at hm
        obtain ⟨hleg, rfl⟩ := hm
        have hne : ¬(d.1 = 0 ∧ d.2 = 0) := by fin_cases hd <;> decide
        refine ⟨⟨hleg, rfl, square_ne_offset hne, by simp, ?_, ?_, ?_⟩, rfl⟩
        · right
          simpa using hvalid
        · intro h
          simp at h
        · intro h
          simp at h
  · -- castling
    split at hm
    case isTrue => simp at hm
    case isFalse hhome =>
      push_neg at hhome
      obtain ⟨hrk0, hfl0⟩ := hhome
      split at hm
      case isTrue => simp at hm
      case isFalse hatt =>
        have hatt2 : isSquareAttacked b fromSq (opponent side) = false :=
          eq_false_of_ne_true hatt
        rw [List.mem_append] at hm
        have hfromHome : fromSq = (⟨home, 4⟩ : Square) := by
          obtain ⟨r0, f0⟩ := fromSq
          dsimp at hrk0 hfl0
          rw [hrk0, hfl0]
        rcases hm with hm | hm
        · -- kingside
          split at hm
          case isFalse => simp at hm
          case isTrue hks =>
            rcases hrk : b.atSq ⟨home, 7⟩ with _ | rook
            · rw [hrk] at hm
              simp at hm
            rw [hrk] at hm
            dsimp only at hm
            split at hm
            case isFalse => simp at hm
            case isTrue hrook =>
              split at hm
              case isFalse => simp at hm
              case isTrue hempty =>
                split at hm
                case isFalse => simp at hm
                case isTrue hnoatt =>
                  split at hm
                  case isFalse => simp at hm
                  case isTrue hleg =>
                    rw [List.mem_singleton] at hm
                    subst hm
                    obtain ⟨hrt, hrc⟩ := hrook
                    obtain ⟨rt, rc⟩ := rook
                    dsimp only at hrt hrc
                    subst hrt
                    subst hrc
                    simp only [Bool.and_eq_true, Bool.not_eq_true'] at hempty hnoatt
                    refine ⟨⟨hleg, rfl, ?_, by simp, ?_, ?_, ?_⟩, rfl⟩
                    · refine square_ne_of_file ?_
                      dsimp only
                      omega
                    · right
                      rw [Square.isValid_iff]
                      dsimp only
                      omega
                    · intro h
                      simp at h
                    · intro _
                      refine ⟨hk, ?_, ?_, hatt2, rfl, ?_⟩
                      · rw [hhomeRank]
                        exact hfromHome
                      · rw [hhomeRank]
                      · left
                        rw [hhomeRank]
                        exact ⟨rfl, hksIdx.trans hks, hrk, hempty.1, hempty.2,
                          hnoatt.1, hnoatt.2⟩
        · -- queenside
          split at hm
          case isFalse => simp at hm
          case isTrue hqs =>
            rcases hrk : b.atSq ⟨home, 0⟩ with _ | rook
            · rw [hrk] at hm
              simp at hm
            rw [hrk] at hm
            dsimp only at hm
            split at hm
            case isFalse => simp at hm
            case isTrue hrook =>
              split at hm
              case isFalse => simp at hm
              case isTrue hempty =>
                split at hm
                case isFalse => simp at hm
                case isTrue hnoatt =>
                  split at hm
                  case isFalse => simp at hm
                  case isTrue hleg =>
                    rw [List.mem_singleton] at hm
                    subst hm
                    obtain ⟨hrt, hrc⟩ := hrook
                    obtain ⟨rt, rc⟩ := rook
                    dsimp only at hrt hrc
                    subst hrt
                    subst hrc
                    simp only [Bool.and_eq_true, Bool.not_eq_true'] at hempty hnoatt
                    refine ⟨⟨hleg, rfl, ?_, by simp, ?_, ?_, ?_⟩, rfl⟩
                    · refine square_ne_of_file ?_
                      dsimp only
                      omega
                    · right
                      rw [Square.isValid_iff]
                      dsimp only
                      omega
                    · intro h
                      simp at h
                    · intro _
                      refine ⟨hk, ?_, ?_, hatt2, rfl, ?_⟩
                      · rw [hhomeRank]
                        exact hfromHome
                      · rw [hhomeRank]
                      · right
                        rw [hhomeRank]
                        exact ⟨rfl, hqsIdx.trans hqs, hrk, hempty.1.1, hempty.1.2,
                          hempty.2, hnoatt.1, hnoatt.2⟩


/-- Master shape lemma: every move produced by `Rules::legalMoves` passes the
legality filter, moves a piece of the side to move, and carries correctly
inferred flags. -/
theorem facts_of_mem_legalMoves {b : Board} {side : Color} {lm : Option Move}
    {cr : CastlingRights} {m : Move} (hm : m ∈ Rules.legalMoves b side lm cr) :
    MoveProps b side lm cr m ∧ ∃ p, b.atSq m.fromSq = some p ∧ p.color = side := by
  unfold Rules.legalMoves at hm
  rw [List.mem_flatMap] at hm
  obtain ⟨s, hs, hm⟩ := hm
  rcases hq : b.atSq s with _ | piece
  · rw [hq] at hm
    simp at hm
  rw [hq] at hm
  dsimp only at hm
  split at hm
  case isTrue => simp at hm
  case isFalse hcol =>
    have hcol2 : piece.color = side := not_not.mp hcol
    obtain ⟨pt, pc⟩ := piece
    dsimp only at hcol2
    subst hcol2
    cases pt with
    | Pawn =>
      obtain ⟨hp, hfrom⟩ := @facts_of_mem_generatePawnMoves b s pc lm cr m hq hm
      subst hfrom
      exact ⟨hp, ⟨_, hq, rfl⟩⟩
    | Knight =>
      obtain ⟨hp, hfrom⟩ := @facts_of_mem_generateKnightMoves b s pc lm cr m hm
      subst hfrom
      exact ⟨hp, ⟨_, hq, rfl⟩⟩
    | Bishop =>
      obtain ⟨hp, hfrom⟩ := @facts_of_mem_generateSlidingMoves b s pc kBishopDirections
        lm cr m (by intro d hd; fin_cases hd <;> decide) hm
      subst hfrom
      exact ⟨hp, ⟨_, hq, rfl⟩⟩
    | Rook =>
      obtain ⟨hp, hfrom⟩ := @facts_of_mem_generateSlidingMoves b s pc kRookDirections
        lm cr m (by intro d hd; fin_cases hd <;> decide) hm
      subst hfrom
      exact ⟨hp, ⟨_, hq, rfl⟩⟩
    | Queen =>
      obtain ⟨hp, hfrom⟩ := @facts_of_mem_generateSlidingMoves b s pc kAllDirections
        lm cr m (by intro d hd; fin_cases hd <;> decide) hm
      subst hfrom
      exact ⟨hp, ⟨_, hq, rfl⟩⟩
    | King =>
      obtain ⟨hp, hfrom⟩ := @facts_of_mem_generateKingMoves b s pc lm cr m hq hm
      subst hfrom
      exact ⟨hp, ⟨_, hq, rfl⟩⟩

/-- Constructive direction: when all the en-passant side conditions hold and the
king-safety filter passes, the en-passant move is generated. -/
theorem ep_mem_legalMoves {b : Board} {side : Color} {lm : Option Move} {l m : Move}
    {cr : CastlingRights}
    (hpawn : b.atSq m.fromSq = some ⟨PieceType.Pawn, side⟩)
    (hl : lm = some l)
    (hlp : b.atSq l.toSq = some ⟨PieceType.Pawn, opponent side⟩)
    (h2 : (l.fromSq.rank - l.toSq.rank).natAbs = 2)
    (hr : m.fromSq.rank = l.toSq.rank)
    (hf : (m.fromSq.file - l.toSq.file).natAbs = 1)
    (hto : m.toSq = ⟨Int.tdiv (l.fromSq.rank + l.toSq.rank) 2, l.toSq.file⟩)
    (hpromo : m.promotion = none) (hep : m.en_passant = true) (hca : m.castling = false)
    (hleg : isMoveLegal b m side = true) :
    m ∈ Rules.legalMoves b side lm cr := by
  have hv : m.fromSq.isValid = true := atSq_some_valid hpawn
  have hmeq : m = ⟨m.fromSq, ⟨Int.tdiv (l.fromSq.rank + l.toSq.rank) 2, l.toSq.file⟩,
      none, true, false⟩ := by
    obtain ⟨mf, mt, mp, me, mc⟩ := m
    dsimp only at hto hpromo hep hca
    rw [Move.mk.injEq]
    exact ⟨rfl, hto, hpromo, hep, hca⟩
  unfold Rules.legalMoves
  rw [List.mem_flatMap]
  refine ⟨m.fromSq, mem_squaresList.mpr hv, ?_⟩
  rw [hpawn]
  dsimp only
  rw [if_neg (by simp)]
  unfold generatePawnMoves
  simp only [List.mem_append]
  right
  rw [hl]
  dsimp only
  rw [hlp]
  dsimp only
  rw [if_pos ⟨rfl, rfl, h2⟩, if_pos ⟨hr, hf⟩, ← hmeq, if_pos hleg]
  exact List.mem_singleton.mpr rfl

/-! ### A side with no king: defensive defaults -/

theorem movePiece_no_king {b : Board} {side : Color} {m : Move}
    (h : ∀ sq, b.atSq sq ≠ some ⟨PieceType.King, side⟩) :
    ∀ sq, (b.movePiece m).atSq sq ≠ some ⟨PieceType.King, side⟩ := by
  intro sq
  rcases atSq_movePiece_cases b m sq with h2 | h2 | h2 <;> rw [h2]
  · simp
  · exact h _
  · exact h _

theorem clearSquare_no_king {b : Board} {side : Color} {c : Square}
    (h : ∀ sq, b.atSq sq ≠ some ⟨PieceType.King, side⟩) :
    ∀ sq, (b.clearSquare c).atSq sq ≠ some ⟨PieceType.King, side⟩ := by
  intro sq
  rcases atSq_clearSquare_cases b c sq with h2 | h2 <;> rw [h2]
  · simp
  · exact h _

theorem scratchApply_no_king {b : Board} {side : Color} {m : Move}
    (h : ∀ sq, b.atSq sq ≠ some ⟨PieceType.King, side⟩) :
    ∀ sq, (scratchApply b m).atSq sq ≠ some ⟨PieceType.King, side⟩ := by
  unfold scratchApply
  split
  · exact clearSquare_no_king (movePiece_no_king h)
  · exact movePiece_no_king h

theorem isMoveLegal_eq_false_of_no_king {b : Board} {side : Color}
    (h : ∀ sq, b.atSq sq ≠ some ⟨PieceType.King, side⟩) (m : Move) :
    isMoveLegal b m side = false := by
  unfold isMoveLegal
  rw [findKing_eq_none_iff.mpr (scratchApply_no_king h)]

theorem legalMoves_eq_nil_of_no_king {b : Board} {side : Color} {lm : Option Move}
    {cr : CastlingRights} (h : ∀ sq, b.atSq sq ≠ some ⟨PieceType.King, side⟩) :
    Rules.legalMoves b side lm cr = [] := by
  rw [List.eq_nil_iff_forall_not_mem]
  intro m hm
  have hf := (facts_of_mem_legalMoves hm).1.legal
  rw [isMoveLegal_eq_false_of_no_king h m] at hf
  exact Bool.noConfusion hf


/-! ### How `updateCastlingRights` acts on each entry of the rights array -/

theorem revokeIfRookSquare_apply (cr : CastlingRights) (sq : Square) (i : Fin 4) :
    revokeIfRookSquare cr sq i = if sq = cornerSq i then false else cr i := by
  obtain ⟨r, f⟩ := sq
  fin_cases i <;>
    · simp only [revokeIfRookSquare, cornerSq, clearRight, Function.update_apply,
        Square.mk.injEq]
      split_ifs <;> simp_all

theorem kingClear_apply (cr : CastlingRights) (side : Color) (i : Fin 4) :
    (if side = Color.White then clearRight (clearRight cr 0) 1
     else clearRight (clearRight cr 2) 3) i =
      if rightColor i = side then false else cr i := by
  cases side <;> fin_cases i <;>
    simp [clearRight, Function.update_apply, rightColor]

/-- Pointwise description of `updateCastlingRights`: entry `i` is cleared
exactly when the move's origin or destination is the corresponding rook corner,
or a king stands on the destination after the move and the mover owns right `i`;
otherwise it is untouched. -/
theorem updateCastlingRights_apply (b : Board) (side : Color) (m : Move)
    (cr : CastlingRights) (i : Fin 4) :
    updateCastlingRights b side m cr i =
      if m.fromSq = cornerSq i ∨ m.toSq = cornerSq i then false
      else if (∃ p, b.atSq m.toSq = some p ∧ p.type = PieceType.King) ∧ rightColor i = side
        then false
      else cr i := by
  unfold updateCastlingRights
  rw [revokeIfRookSquare_apply, revokeIfRookSquare_apply]
  by_cases h1 : m.fromSq = cornerSq i
  · simp [h1]
  by_cases h2 : m.toSq = cornerSq i
  · simp [h1, h2]
  rw [if_neg h2, if_neg h1, if_neg (not_or.mpr ⟨h1, h2⟩)]
  rcases hq : b.atSq m.toSq with _ | p <;> dsimp only
  · rw [if_neg (by rintro ⟨⟨q, hq2, _⟩, _⟩; exact Option.noConfusion hq2)]
  · split
    next hk =>
      rw [kingClear_apply]
      by_cases h3 : rightColor i = side
      · rw [if_pos h3, if_pos ⟨⟨p, rfl, hk⟩, h3⟩]
      · rw [if_neg h3, if_neg (fun hh => h3 hh.2)]
    next hk =>
      rw [if_neg (by
        rintro ⟨⟨q, hq2, hqk⟩, _⟩
        injection hq2 with e
        rw [e] at hk
        exact hk hqk)]

theorem updateCastlingRights_mono {b : Board} {side : Color} {m : Move}
    {cr : CastlingRights} {i : Fin 4} (h : updateCastlingRights b side m cr i = true) :
    cr i = true := by
  rw [updateCastlingRights_apply] at h
  split at h
  · exact Bool.noConfusion h
  · split at h
    · exact Bool.noConfusion h
    · exact h

/-! ### Structure of a successful `makeMove` -/

theorem makeMove_eq_true_elim {g : GameState} {c : Move} {g' : GameState}
    (h : makeMove g c = (true, g')) :
    ∃ lmv, lmv ∈ Rules.legalMoves g.board g.side_to_move g.last_move g.castling_rights ∧
      lmv.fromSq = c.fromSq ∧ lmv.toSq = c.toSq ∧
      g' = ⟨handleSpecialMoves g.board lmv, opponent g.side_to_move, some lmv,
            updateCastlingRights (handleSpecialMoves g.board lmv) g.side_to_move lmv
              g.castling_rights⟩ := by
  unfold makeMove at h
  dsimp only at h
  rcases hf : (Rules.legalMoves g.board g.side_to_move g.last_move g.castling_rights).find?
      (fun m => decide (m.fromSq = c.fromSq) && decide (m.toSq = c.toSq)) with _ | lmv
  · rw [hf] at h
    dsimp only at h
    simp at h
  · rw [hf] at h
    dsimp only at h
    have hmem := List.mem_of_find?_eq_some hf
    have hpred := List.find?_some hf
    simp only [Bool.and_eq_true, decide_eq_true_eq] at hpred
    obtain ⟨h1, h2⟩ := hpred
    exact ⟨lmv, hmem, h1, h2, (congrArg Prod.snd h).symm⟩

theorem makeMove_eq_false_of_no_match {g : GameState} {c : Move}
    (h : ∀ m ∈ Rules.legalMoves g.board g.side_to_move g.last_move g.castling_rights,
      ¬(m.fromSq = c.fromSq ∧ m.toSq = c.toSq)) :
    makeMove g c = (false, g) := by
  unfold makeMove
  dsimp only
  have hf : (Rules.legalMoves g.board g.side_to_move g.last_move g.castling_rights).find?
      (fun m => decide (m.fromSq = c.fromSq) && decide (m.toSq = c.toSq)) = none := by
    rw [List.find?_eq_none]
    intro m hm
    simp only [Bool.and_eq_true, decide_eq_true_eq]
    exact h m hm
  rw [hf]


/-! ### Geometry of special moves and the board effect of `handleSpecialMoves` -/

theorem epFacts_geometry {b : Board} {side : Color} {lm : Option Move} {m : Move}
    (h : EpFacts b side lm m) :
    m.toSq.rank ≠ m.fromSq.rank ∧ m.toSq.file ≠ m.fromSq.file ∧
      ∃ l, lm = some l ∧ (⟨m.fromSq.rank, m.toSq.file⟩ : Square) = l.toSq ∧
        b.atSq l.toSq = some ⟨PieceType.Pawn, opponent side⟩ := by
  obtain ⟨l, hl, hq, habs, hrank, hfile, hto⟩ := h.exists_last
  refine ⟨?_, ?_, l, hl, ?_, hq⟩
  · rw [hto, hrank]
    dsimp only
    rcases tdiv_mid habs with ⟨ha, he⟩ | ⟨ha, he⟩ <;> omega
  · rw [hto]
    dsimp only
    omega
  · rw [hrank, hto]

theorem castleFacts_geometry {b : Board} {side : Color} {cr : CastlingRights} {m : Move}
    (h : CastleFacts b side cr m) :
    m.toSq.rank = m.fromSq.rank ∧ (m.toSq.file = 6 ∨ m.toSq.file = 2) ∧
      m.toSq.isValid = true := by
  have hfr : m.fromSq.rank = homeRank side := by rw [h.from_home]
  have hfile : m.toSq.file = 6 ∨ m.toSq.file = 2 := by
    rcases h.side_facts with ⟨h6, _⟩ | ⟨h2, _⟩
    · exact Or.inl h6
    · exact Or.inr h2
  have hhome : homeRank side = 7 ∨ homeRank side = 0 := by
    unfold homeRank
    cases side <;> simp
  refine ⟨by rw [h.to_rank, hfr], hfile, ?_⟩
  rw [Square.isValid_iff]
  have := h.to_rank
  rcases hfile with h' | h' <;> rcases hhome with h'' | h'' <;> omega

theorem handleSpecialMoves_atSq_to {b : Board} {m : Move}
    (hne : m.fromSq ≠ m.toSq) (hv : m.toSq.isValid = true)
    (hepr : m.en_passant = true → m.toSq.rank ≠ m.fromSq.rank ∧ m.toSq.file ≠ m.fromSq.file)
    (hcast : m.castling = true →
      m.toSq.rank = m.fromSq.rank ∧ (m.toSq.file = 6 ∨ m.toSq.file = 2)) :
    (handleSpecialMoves b m).atSq m.toSq = b.atSq m.fromSq := by
  unfold handleSpecialMoves
  dsimp only
  have hb1 : ((if m.en_passant then b.clearSquare ⟨m.fromSq.rank, m.toSq.file⟩ else b).movePiece
      m).atSq m.toSq = b.atSq m.fromSq := by
    rw [atSq_movePiece_to hne hv]
    split
    next hep =>
      refine atSq_clearSquare_of_ne (square_ne_of_file ?_)
      dsimp only
      exact fun he => (hepr hep).2 he.symm
    next => rfl
  split
  next hca =>
    obtain ⟨hrank, hfile⟩ := hcast hca
    split
    next h6 =>
      rw [atSq_movePiece_of_ne (square_ne_of_file (by dsimp only; omega))
        (square_ne_of_file (by dsimp only; omega))]
      exact hb1
    next =>
      split
      next h2' =>
        rw [atSq_movePiece_of_ne (square_ne_of_file (by dsimp only; omega))
          (square_ne_of_file (by dsimp only; omega))]
        exact hb1
      next => exact hb1
  next => exact hb1

theorem handleSpecialMoves_atSq_other {b : Board} {m : Move} {s : Square}
    (h1 : s ≠ m.fromSq) (h2 : s ≠ m.toSq)
    (hep : m.en_passant = true → s ≠ ⟨m.fromSq.rank, m.toSq.file⟩)
    (hca : m.castling = true → s ≠ ⟨m.fromSq.rank, 7⟩ ∧ s ≠ ⟨m.fromSq.rank, 5⟩ ∧
      s ≠ ⟨m.fromSq.rank, 0⟩ ∧ s ≠ ⟨m.fromSq.rank, 3⟩) :
    (handleSpecialMoves b m).atSq s = b.atSq s := by
  unfold handleSpecialMoves
  dsimp only
  have hb1 : ((if m.en_passant then b.clearSquare ⟨m.fromSq.rank, m.toSq.file⟩ else b).movePiece
      m).atSq s = b.atSq s := by
    rw [atSq_movePiece_of_ne h1 h2]
    split
    next hepp => exact atSq_clearSquare_of_ne (hep hepp)
    next => rfl
  split
  next hcaa =>
    obtain ⟨hc1, hc2, hc3, hc4⟩ := hca hcaa
    split
    next =>
      rw [atSq_movePiece_of_ne hc1 hc2]
      exact hb1
    next =>
      split
      next =>
        rw [atSq_movePiece_of_ne hc3 hc4]
        exact hb1
      next => exact hb1
  next => exact hb1

theorem props_to_valid {b : Board} {side : Color} {lm : Option Move} {cr : CastlingRights}
    {m : Move} (h : MoveProps b side lm cr m)
    (hwf_lm : ∀ l, lm = some l → l.fromSq.isValid = true) : m.toSq.isValid = true := by
  rcases h.to_valid with hep | hv
  · obtain ⟨l, hl, hq, habs, hrank, hfile, hto⟩ := (h.ep hep).exists_last
    have h1 := atSq_some_valid hq
    have h2 := hwf_lm l hl
    rw [Square.isValid_iff] at h1 h2
    rw [hto, Square.isValid_iff]
    dsimp only
    rcases tdiv_mid habs with ⟨ha, he⟩ | ⟨ha, he⟩ <;> omega
  · exact hv

theorem props_atSq_to {b : Board} {side : Color} {lm : Option Move} {cr : CastlingRights}
    {m : Move} (h : MoveProps b side lm cr m) (hv : m.toSq.isValid = true) :
    (handleSpecialMoves b m).atSq m.toSq = b.atSq m.fromSq := by
  refine handleSpecialMoves_atSq_to h.ne hv ?_ ?_
  · intro hep
    obtain ⟨ha, hb2, _⟩ := epFacts_geometry (h.ep hep)
    exact ⟨ha, hb2⟩
  · intro hca
    obtain ⟨ha, hb2, _⟩ := castleFacts_geometry (h.castle hca)
    exact ⟨ha, hb2⟩


/-! ### The session invariant: rights point at rooks, last move is on-board -/

theorem wf_newGame : WF newGame := by
  constructor
  · intro l hl
    exact Option.noConfusion hl
  · intro i _
    fin_cases i <;> decide

theorem corner_rank_ne_home {i : Fin 4} {side : Color} (h : rightColor i ≠ side) :
    (cornerSq i).rank ≠ homeRank side := by
  fin_cases i <;> cases side <;>
    simp_all [cornerSq, rightColor, homeRank]

theorem wf_preserved {g g' : GameState} {c : Move} (hwf : WF g)
    (h : makeMove g c = (true, g')) : WF g' := by
  obtain ⟨lmv, hmem, hc1, hc2, rfl⟩ := makeMove_eq_true_elim h
  obtain ⟨hprops, pc, hpcq, hpcc⟩ := facts_of_mem_legalMoves hmem
  have hval : lmv.toSq.isValid = true :=
    props_to_valid hprops (fun l hl => (hwf.lm_valid l hl).1)
  have hto2 : (handleSpecialMoves g.board lmv).atSq lmv.toSq = g.board.atSq lmv.fromSq :=
    props_atSq_to hprops hval
  constructor
  · intro l hl
    dsimp only at hl
    injection hl with e
    subst e
    exact ⟨atSq_some_valid hpcq, hval⟩
  · intro i hi
    dsimp only at hi ⊢
    have hold : g.castling_rights i = true := updateCastlingRights_mono hi
    have hrook := hwf.rook_at i hold
    rw [updateCastlingRights_apply] at hi
    split at hi
    · exact Bool.noConfusion hi
    next hcorner =>
      split at hi
      · exact Bool.noConfusion hi
      next hking =>
        push_neg at hcorner
        obtain ⟨hfc, htc⟩ := hcorner
        rw [handleSpecialMoves_atSq_other (Ne.symm hfc) (Ne.symm htc) ?_ ?_]
        · exact hrook
        · -- en-passant clearing square is the enemy pawn square, not a rook corner
          intro hepv he
          obtain ⟨_, _, l, hl, hcs, hq⟩ := epFacts_geometry (hprops.ep hepv)
          rw [he, hcs] at hrook
          rw [hrook] at hq
          simp at hq
        · -- the castling rook relocation stays on the mover's home rank
          intro hcav
          have hcf := hprops.castle hcav
          have hking2 : ∃ p, (handleSpecialMoves g.board lmv).atSq lmv.toSq = some p ∧
              p.type = PieceType.King := by
            refine ⟨⟨PieceType.King, g.side_to_move⟩, ?_, rfl⟩
            rw [hto2, hcf.king_from]
          have hsideNe : rightColor i ≠ g.side_to_move := fun he => hking ⟨hking2, he⟩
          have hfr : lmv.fromSq.rank = homeRank g.side_to_move := by rw [hcf.from_home]
          have hranks : (cornerSq i).rank ≠ lmv.fromSq.rank := by
            rw [hfr]
            exact corner_rank_ne_home hsideNe
          exact ⟨square_ne_of_rank hranks, square_ne_of_rank hranks,
            square_ne_of_rank hranks, square_ne_of_rank hranks⟩

/-- Every state an actual `ChessGame` session can reach is well-formed. -/
theorem reachable_wf {g : GameState} (h : Reachable g) : WF g := by
  induction h with
  | base => exact wf_newGame
  | step hr hm ih => exact wf_preserved ih hm


theorem reachable_playAll {g : GameState} {ms : List Move} (hr : Reachable g)
    (hacc : allAccepted g ms = true) : Reachable (playAll g ms) := by
  induction ms generalizing g with
  | nil => exact hr
  | cons m ms ih =>
    rw [allAccepted, Bool.and_eq_true] at hacc
    have hstep : makeMove g m = (true, stepState g m) := Prod.ext hacc.1 rfl
    exact ih (Reachable.step hr hstep) hacc.2

/-! ### The claims -/

/-- C1: every move `m` in the list returned by `Rules::legalMoves` is
king-safe: applying `m` to a copy of the board (`scratchApply`: relocate the
piece from `m.fromSq` to `m.toSq` and, when the en-passant flag is set, clear
the square at (m.fromSq.rank, m.toSq.file)) yields a position in which the
moving side's king exists (`findKing` returns a square) and that square is not
attacked by the opposing color (the program's `isSquareAttacked` predicate). -/
theorem C1_legal_moves_are_king_safe (b : Board) (side : Color) (lm : Option Move)
    (cr : CastlingRights) (m : Move) (hm : m ∈ Rules.legalMoves b side lm cr) :
    ∃ ksq, findKing (scratchApply b m) side = some ksq ∧
      isSquareAttacked (scratchApply b m) ksq (opponent side) = false :=
  isMoveLegal_iff.mp (facts_of_mem_legalMoves hm).1.legal

theorem C1_witness :
    e2e4 ∈ Rules.legalMoves startBoard Color.White none (fun _ => true) ∧
    ∃ ksq, findKing (scratchApply startBoard e2e4) Color.White = some ksq ∧
      isSquareAttacked (scratchApply startBoard e2e4) ksq (opponent Color.White) = false := by
  have h : e2e4 ∈ Rules.legalMoves startBoard Color.White none (fun _ => true) := by decide
  exact ⟨h, C1_legal_moves_are_king_safe startBoard Color.White none (fun _ => true) e2e4 h⟩

/-- C2: a candidate whose (from,to) pair matches no element of the current
legal-move list is rejected: `makeMove` returns false and the session state —
board grid, side to move, stored last move, and all four castling-rights
booleans — is returned exactly as it was. -/
theorem C2_rejected_move_leaves_state_unchanged (g : GameState) (c : Move)
    (h : ∀ m ∈ Rules.legalMoves g.board g.side_to_move g.last_move g.castling_rights,
      ¬(m.fromSq = c.fromSq ∧ m.toSq = c.toSq)) :
    makeMove g c = (false, g) :=
  makeMove_eq_false_of_no_match h

theorem C2_witness :
    (∀ m ∈ Rules.legalMoves newGame.board newGame.side_to_move newGame.last_move
        newGame.castling_rights, ¬(m.fromSq = a1a1.fromSq ∧ m.toSq = a1a1.toSq)) ∧
    makeMove newGame a1a1 = (false, newGame) := by
  have h : ∀ m ∈ Rules.legalMoves newGame.board newGame.side_to_move newGame.last_move
      newGame.castling_rights, ¬(m.fromSq = a1a1.fromSq ∧ m.toSq = a1a1.toSq) := by decide
  exact ⟨h, C2_rejected_move_leaves_state_unchanged newGame a1a1 h⟩

/-- C3: immediately after `newGame()` (standard starting position, White to
move, no last move, all castling rights held), `legalMoves()` returns exactly
20 moves: 8 single pawn pushes (rank difference 1), 8 double pawn pushes (rank
difference 2), and 4 knight moves. -/
theorem C3_initial_position_twenty_moves :
    newGame.legalMoves.length = 20 ∧
    (newGame.legalMoves.countP fun m =>
      (match newGame.board.atSq m.fromSq with
       | some p => decide (p.type = PieceType.Pawn)
       | none => false) && decide (m.fromSq.rank - m.toSq.rank = 1)) = 8 ∧
    (newGame.legalMoves.countP fun m =>
      (match newGame.board.atSq m.fromSq with
       | some p => decide (p.type = PieceType.Pawn)
       | none => false) && decide (m.fromSq.rank - m.toSq.rank = 2)) = 8 ∧
    (newGame.legalMoves.countP fun m =>
      (match newGame.board.atSq m.fromSq with
       | some p => decide (p.type = PieceType.Knight)
       | none => false)) = 4 := by
  have hL : newGame.legalMoves = startMovesList := by decide
  refine ⟨?_, ?_, ?_, ?_⟩ <;> rw [hL] <;> decide

/-- C5: `Rules::legalMoves` contains an en-passant-flagged move `m` (for a pawn
of the side to move) exactly when: the last move exists; the piece standing on
its destination is an opponent pawn; that move crossed two ranks; the moving
pawn stands on the same rank at file distance one; `m` goes to the square on
the opponent pawn's file whose rank is the midpoint of (hence strictly
between) the last move's ranks; and the resulting position passes the
king-safety filter (`isMoveLegal`).  The generated move carries no promotion
and no castling flag. -/
theorem C5_en_passant_characterization (b : Board) (side : Color) (lm : Option Move)
    (cr : CastlingRights) (m : Move) :
    (m ∈ Rules.legalMoves b side lm cr ∧ m.en_passant = true) ↔
      ∃ l, lm = some l ∧
        b.atSq m.fromSq = some ⟨PieceType.Pawn, side⟩ ∧
        b.atSq l.toSq = some ⟨PieceType.Pawn, opponent side⟩ ∧
        (l.fromSq.rank - l.toSq.rank).natAbs = 2 ∧
        m.fromSq.rank = l.toSq.rank ∧
        (m.fromSq.file - l.toSq.file).natAbs = 1 ∧
        m.toSq.file = l.toSq.file ∧ l.fromSq.rank + l.toSq.rank = 2 * m.toSq.rank ∧
        m.promotion = none ∧ m.en_passant = true ∧ m.castling = false ∧
        isMoveLegal b m side = true := by
  constructor
  · rintro ⟨hm, hep⟩
    obtain ⟨hprops, _⟩ := facts_of_mem_legalMoves hm
    obtain ⟨hpf, ⟨l, hl, hq, habs, hrank, hfile, hto⟩, hnc⟩ := hprops.ep hep
    refine ⟨l, hl, hpf, hq, habs, hrank, hfile, ?_, ?_, hprops.promo, hep, hnc, hprops.legal⟩
    · rw [hto]
    · rw [hto]
      dsimp only
      exact tdiv_mid_sum habs
  · rintro ⟨l, hl, hpf, hq, habs, hrank, hfile, hf2, hmid, hpromo, hep, hca, hleg⟩
    refine ⟨ep_mem_legalMoves hpf hl hq habs hrank hfile ?_ hpromo hep hca hleg, hep⟩
    have hmr : Int.tdiv (l.fromSq.rank + l.toSq.rank) 2 = m.toSq.rank := by
      rcases tdiv_mid habs with ⟨ha, he⟩ | ⟨ha, he⟩ <;> omega
    rw [hmr, ← hf2]

/-- C6: a castling-flagged move to the g-file appears in `Rules::legalMoves`
only if: the king stands on its home square (e-file of the home rank) and that
square is not attacked; the side's kingside right is held; a rook of the
side's color stands on the h-file of the home rank; the f- and g-file squares
of the home rank are empty; and neither is attacked by the opponent. -/
theorem C6_kingside_castling_preconditions (b : Board) (side : Color) (lm : Option Move)
    (cr : CastlingRights) (m : Move) (hm : m ∈ Rules.legalMoves b side lm cr)
    (hca : m.castling = true) (hks : m.toSq.file = 6) :
    m.fromSq = ⟨homeRank side, 4⟩ ∧ m.toSq = ⟨homeRank side, 6⟩ ∧
    cr (kingsideIdx side) = true ∧
    b.atSq ⟨homeRank side, 4⟩ = some ⟨PieceType.King, side⟩ ∧
    isSquareAttacked b ⟨homeRank side, 4⟩ (opponent side) = false ∧
    b.atSq ⟨homeRank side, 7⟩ = some ⟨PieceType.Rook, side⟩ ∧
    b.hasPieceAt ⟨homeRank side, 5⟩ = false ∧ b.hasPieceAt ⟨homeRank side, 6⟩ = false ∧
    isSquareAttacked b ⟨homeRank side, 5⟩ (opponent side) = false ∧
    isSquareAttacked b ⟨homeRank side, 6⟩ (opponent side) = false := by
  obtain ⟨hprops, _⟩ := facts_of_mem_legalMoves hm
  have hcf := hprops.castle hca
  rcases hcf.side_facts with ⟨h6, hcr, hrk, he5, he6, ha5, ha6⟩ | ⟨h2, _⟩
  · refine ⟨hcf.from_home, ?_, hcr, ?_, ?_, hrk, he5, he6, ha5, ha6⟩
    · rw [show m.toSq = (⟨m.toSq.rank, m.toSq.file⟩ : Square) from rfl, hcf.to_rank, hks]
    · rw [← hcf.from_home]
      exact hcf.king_from
    · rw [← hcf.from_home]
      exact hcf.king_not_attacked
  · exact absurd (hks.symm.trans h2) (by norm_num)

theorem C6_witness :
    castleKingside ∈ Rules.legalMoves castleBoard Color.White none (fun _ => true) ∧
    castleKingside.castling = true ∧ castleKingside.toSq.file = 6 ∧
    (castleKingside.fromSq = ⟨homeRank Color.White, 4⟩ ∧
     castleKingside.toSq = ⟨homeRank Color.White, 6⟩ ∧
     (fun _ => true : CastlingRights) (kingsideIdx Color.White) = true ∧
     castleBoard.atSq ⟨homeRank Color.White, 4⟩ = some ⟨PieceType.King, Color.White⟩ ∧
     isSquareAttacked castleBoard ⟨homeRank Color.White, 4⟩ (opponent Color.White) = false ∧
     castleBoard.atSq ⟨homeRank Color.White, 7⟩ = some ⟨PieceType.Rook, Color.White⟩ ∧
     castleBoard.hasPieceAt ⟨homeRank Color.White, 5⟩ = false ∧
     castleBoard.hasPieceAt ⟨homeRank Color.White, 6⟩ = false ∧
     isSquareAttacked castleBoard ⟨homeRank Color.White, 5⟩ (opponent Color.White) = false ∧
     isSquareAttacked castleBoard ⟨homeRank Color.White, 6⟩ (opponent Color.White) = false) := by
  have h : castleKingside ∈ Rules.legalMoves castleBoard Color.White none (fun _ => true) := by
    decide
  exact ⟨h, rfl, rfl, C6_kingside_castling_preconditions castleBoard Color.White none
    (fun _ => true) castleKingside h rfl rfl⟩

/-- C9: on a board where the queried side has no king at all, the query surface
stays total and returns safe defaults: `Rules::isCheck` is false, and
`Rules::legalMoves` is empty because `isMoveLegal` rejects every candidate. -/
theorem C9_no_king_safe_defaults (b : Board) (side : Color) (lm : Option Move)
    (cr : CastlingRights) (h : ∀ sq, b.atSq sq ≠ some ⟨PieceType.King, side⟩) :
    Rules.isCheck b side = false ∧ Rules.legalMoves b side lm cr = [] ∧
      ∀ m, isMoveLegal b m side = false := by
  refine ⟨?_, legalMoves_eq_nil_of_no_king h, isMoveLegal_eq_false_of_no_king h⟩
  unfold Rules.isCheck
  rw [findKing_eq_none_iff.mpr h]

theorem C9_witness :
    (∀ sq, emptyBoard.atSq sq ≠ some ⟨PieceType.King, Color.White⟩) ∧
    (Rules.isCheck emptyBoard Color.White = false ∧
     Rules.legalMoves emptyBoard Color.White none (fun _ => true) = [] ∧
     ∀ m, isMoveLegal emptyBoard m Color.White = false) := by
  have h : ∀ sq, emptyBoard.atSq sq ≠ some ⟨PieceType.King, Color.White⟩ := by
    intro sq
    simp [Board.atSq, emptyBoard]
  exact ⟨h, C9_no_king_safe_defaults emptyBoard Color.White none (fun _ => true) h⟩


/-- C4: a successful `makeMove` puts on the destination square a piece of the
same type (indeed the same piece) as the one that stood on the origin before
the call; the candidate's `promotion` field is never consulted during
application, so the result is the same for every value of that field — in
particular a pawn reaching the last rank remains a pawn. -/
theorem C4_moved_piece_type_preserved_promotion_ignored (g : GameState) (c : Move)
    (g' : GameState) (hr : Reachable g) (h : makeMove g c = (true, g')) :
    (∃ p p', g.board.atSq c.fromSq = some p ∧ g'.board.atSq c.toSq = some p' ∧
      p'.type = p.type) ∧
    ∀ promo : Option PieceType,
      makeMove g ⟨c.fromSq, c.toSq, promo, c.en_passant, c.castling⟩ = (true, g') := by
  constructor
  · have hwf := reachable_wf hr
    obtain ⟨lmv, hmem, h1, h2, rfl⟩ := makeMove_eq_true_elim h
    obtain ⟨hprops, pc, hpcq, hpcc⟩ := facts_of_mem_legalMoves hmem
    have hval : lmv.toSq.isValid = true :=
      props_to_valid hprops (fun l hl => (hwf.lm_valid l hl).1)
    refine ⟨pc, pc, ?_, ?_, rfl⟩
    · rw [← h1]
      exact hpcq
    · dsimp only
      rw [← h2, props_atSq_to hprops hval]
      exact hpcq
  · intro promo
    exact h

theorem C4_witness :
    Reachable newGame ∧ makeMove newGame e2e4 = (true, afterE2E4) ∧
    ((∃ p p', newGame.board.atSq e2e4.fromSq = some p ∧
        afterE2E4.board.atSq e2e4.toSq = some p' ∧ p'.type = p.type) ∧
     ∀ promo : Option PieceType,
       makeMove newGame ⟨e2e4.fromSq, e2e4.toSq, promo, e2e4.en_passant, e2e4.castling⟩ =
         (true, afterE2E4)) := by
  have hstep : makeMove newGame e2e4 = (true, afterE2E4) := Prod.ext (by decide) rfl
  exact ⟨Reachable.base, hstep,
    C4_moved_piece_type_preserved_promotion_ignored newGame e2e4 afterE2E4 Reachable.base hstep⟩

/-- C7: on any reachable session state, a successful `makeMove` updates the
four castling-rights booleans exactly as the spec states: writing `m` for the
matched move that was applied (stored as the new last move), right `i` is
cleared precisely when the mover's king left its square (the piece on the
origin was a king of right `i`'s color) or the rook guarding right `i` left,
or was captured on, its home corner; no right is cleared otherwise. -/
theorem C7_castling_rights_update_spec (g : GameState) (c : Move) (g' : GameState)
    (hr : Reachable g) (h : makeMove g c = (true, g')) :
    ∃ m, g'.last_move = some m ∧ m.fromSq = c.fromSq ∧ m.toSq = c.toSq ∧
      ∀ i, g'.castling_rights i =
        (g.castling_rights i &&
          !(decide (g.board.atSq m.fromSq = some ⟨PieceType.King, rightColor i⟩) ||
            (decide (g.board.atSq (cornerSq i) = some ⟨PieceType.Rook, rightColor i⟩) &&
              (decide (m.fromSq = cornerSq i) || decide (m.toSq = cornerSq i))))) := by
  have hwf := reachable_wf hr
  obtain ⟨lmv, hmem, h1, h2, rfl⟩ := makeMove_eq_true_elim h
  obtain ⟨hprops, pc, hpcq, hpcc⟩ := facts_of_mem_legalMoves hmem
  have hval : lmv.toSq.isValid = true :=
    props_to_valid hprops (fun l hl => (hwf.lm_valid l hl).1)
  have hto2 : (handleSpecialMoves g.board lmv).atSq lmv.toSq = g.board.atSq lmv.fromSq :=
    props_atSq_to hprops hval
  refine ⟨lmv, rfl, h1, h2, ?_⟩
  intro i
  dsimp only
  rw [updateCastlingRights_apply]
  obtain ⟨pt, pcol⟩ := pc
  dsimp only at hpcc
  subst hpcc
  by_cases hcor : lmv.fromSq = cornerSq i ∨ lmv.toSq = cornerSq i
  · rw [if_pos hcor]
    rcases hcr : g.castling_rights i
    · simp
    · have hrook := hwf.rook_at i hcr
      rcases hcor with hc | hc <;> simp [hrook, hc]
  · rw [if_neg hcor]
    push_neg at hcor
    obtain ⟨hfc, htc⟩ := hcor
    by_cases hk : pt = PieceType.King ∧ rightColor i = g.side_to_move
    · have hKP : (∃ p, (handleSpecialMoves g.board lmv).atSq lmv.toSq = some p ∧
          p.type = PieceType.King) ∧ rightColor i = g.side_to_move :=
        ⟨⟨⟨pt, g.side_to_move⟩, by rw [hto2, hpcq], hk.1⟩, hk.2⟩
      rw [if_pos hKP]
      have hA : g.board.atSq lmv.fromSq = some ⟨PieceType.King, rightColor i⟩ := by
        rw [hpcq, hk.1, hk.2]
      simp [hA]
    · have hKP : ¬((∃ p, (handleSpecialMoves g.board lmv).atSq lmv.toSq = some p ∧
          p.type = PieceType.King) ∧ rightColor i = g.side_to_move) := by
        rintro ⟨⟨p, hp, hpk⟩, hcolmatch⟩
        rw [hto2, hpcq] at hp
        injection hp with e
        rw [← e] at hpk
        exact hk ⟨hpk, hcolmatch⟩
      rw [if_neg hKP]
      have hA : decide (g.board.atSq lmv.fromSq =
          some ⟨PieceType.King, rightColor i⟩) = false := by
        rw [decide_eq_false_iff_not, hpcq]
        intro he
        injection he with e
        injection e with e1 e2
        exact hk ⟨e1, e2.symm⟩
      simp [hA, hfc, htc]

theorem C7_witness :
    Reachable newGame ∧ makeMove newGame e2e4 = (true, afterE2E4) ∧
    ∃ m, afterE2E4.last_move = some m ∧ m.fromSq = e2e4.fromSq ∧ m.toSq = e2e4.toSq ∧
      ∀ i, afterE2E4.castling_rights i =
        (newGame.castling_rights i &&
          !(decide (newGame.board.atSq m.fromSq = some ⟨PieceType.King, rightColor i⟩) ||
            (decide (newGame.board.atSq (cornerSq i) =
                some ⟨PieceType.Rook, rightColor i⟩) &&
              (decide (m.fromSq = cornerSq i) || decide (m.toSq = cornerSq i))))) := by
  have hstep : makeMove newGame e2e4 = (true, afterE2E4) := Prod.ext (by decide) rfl
  exact ⟨Reachable.base, hstep,
    C7_castling_rights_update_spec newGame e2e4 afterE2E4 Reachable.base hstep⟩

/-- C8: for every call to `makeMove` — accepted or rejected — a castling right
that is false before the call is still false after it; over any sequence of
calls each right is therefore monotonically non-increasing and never returns
to true once cleared. -/
theorem C8_castling_rights_monotone (g : GameState) (c : Move) (i : Fin 4)
    (h : g.castling_rights i = false) :
    ((makeMove g c).2).castling_rights i = false := by
  rcases hm : makeMove g c with ⟨r, g2⟩
  dsimp only
  cases r
  · have he : g2 = g := by
      unfold makeMove at hm
      dsimp only at hm
      rcases hf : (Rules.legalMoves g.board g.side_to_move g.last_move
          g.castling_rights).find?
          (fun m => decide (m.fromSq = c.fromSq) && decide (m.toSq = c.toSq)) with _ | lmv
      · rw [hf] at hm
        dsimp only at hm
        injection hm with e1 e2
        exact e2.symm
      · rw [hf] at hm
        dsimp only at hm
        injection hm with e1 e2
        exact Bool.noConfusion e1
    rw [he]
    exact h
  · obtain ⟨lmv, _, _, _, rfl⟩ := makeMove_eq_true_elim hm
    dsimp only
    cases hu : updateCastlingRights (handleSpecialMoves g.board lmv) g.side_to_move lmv
        g.castling_rights i
    · rfl
    · have hT := updateCastlingRights_mono hu
      rw [hT] at h
      exact Bool.noConfusion h

theorem C8_witness :
    noWKsState.castling_rights 0 = false ∧
    ((makeMove noWKsState e2e4).2).castling_rights 0 = false := by
  have h : noWKsState.castling_rights 0 = false := by decide
  exact ⟨h, C8_castling_rights_monotone noWKsState e2e4 0 h⟩

/-- C10: the engine accepts the line 1.d3 e5 2.Nf3 e4 3.h3 exd3 4.h4 d2 5.h5
dxe1 from the start of a game — ten makeMove calls all returning true — after
which white's kingside castling right is still held while a BLACK PAWN stands
on e1: the white king has been captured, so no reachable-state invariant tying
a held right to the king on its home square can hold.  The root cause is that
`isAttackedByPawn` probes `target + pawn_direction` where the attacking pawn
actually stands at `target - pawn_direction`, so the check from the pawn on d2
is invisible and white's fifth move is accepted. -/
theorem C10_reachable_king_capture_breaks_invariant :
    allAccepted newGame kingCaptureMoves = true ∧
    Reachable (playAll newGame kingCaptureMoves) ∧
    (playAll newGame kingCaptureMoves).castling_rights 0 = true ∧
    (playAll newGame kingCaptureMoves).board.atSq ⟨7, 4⟩ =
      some ⟨PieceType.Pawn, Color.Black⟩ := by
  have hacc : allAccepted newGame kingCaptureMoves = true := by decide
  exact ⟨hacc, reachable_playAll Reachable.base hacc, by decide, by decide⟩

end Chess
